import Mathlib

set_option maxRecDepth 4000

/-!
Shallow embedding of `src/main.rs` (a HashCode 2019 photo-slideshow heuristic).

Machine integers are modelled as `Nat` with explicit `% 256` (the `u8` fields and
arithmetic of the source) and `% 2^32` (the `u32` score accumulator).  Rust
release-mode wrapping is modelled by the modulus; the one genuine index
out-of-bounds panic (`Vec::remove(0)` on an empty vector, reachable in
`create_slides` when the vertical-picture count is odd) is modelled by
`Option`, `none` standing for the panic.  The two `while` loops are embedded
with a fuel argument equal to the initial pool length, which is provably
sufficient (each iteration removes one, respectively two, elements).
-/

namespace Slideshow

inductive Orientation where
  | Horizontal : Orientation
  | Vertical : Orientation
deriving DecidableEq, Repr, Inhabited

/-- The `Picture` struct of the source: `picture_id: u32`, `orientation`,
`number_of_tags: u8`, `tags: Vec<u32>`. -/
structure Picture where
  picture_id : Nat
  orientation : Orientation
  number_of_tags : Nat
  tags : List Nat
deriving DecidableEq, Repr, Inhabited

/-- The `Slide` struct of the source. -/
structure Slide where
  picture_id : Nat
  second_picture_id : Option Nat
  orientation : Orientation
  number_of_tags : Nat
  tags : List Nat
deriving DecidableEq, Repr, Inhabited

/-- Truncation to `u8` range (Rust `as u8`, and the range of every `u8` value). -/
def u8 (n : Nat) : Nat := n % 256

/-- Wrapping `u8` addition. -/
def add8 (a b : Nat) : Nat := (u8 a + u8 b) % 256

/-- Wrapping `u8` subtraction (Rust release-mode `a - b` on `u8`). -/
def sub8 (a b : Nat) : Nat := (u8 a + 256 - u8 b) % 256

/-- The common-tag counter of the source: iterate over `a`, incrementing when
the tag is contained in `b` (`for tag in a { if b.contains(tag) { n += 1 } }`). -/
def commonTags (a b : List Nat) : Nat := List.countP (fun t => b.contains t) a

/-- The body of the candidate loop in `arrange_slides` (lines 67-76): the `u8`
waste of a candidate relative to the current slide, computed with wrapping
`u8` arithmetic exactly in the source's evaluation order
`left_side - score + right_side - score + common_tags - score`. -/
def wasteU8 (current candidate : Slide) : Nat :=
  let c := u8 (commonTags current.tags candidate.tags)
  let left_side := sub8 current.number_of_tags c
  let right_side := sub8 candidate.number_of_tags c
  let score := min c (min left_side right_side)
  sub8 (add8 (sub8 (add8 (sub8 left_side score) right_side) score) c) score

/-- The scan shared by both greedy loops of the source: walk the pool keeping
the first index whose key is strictly below the best seen so far (`waste <
smallest_waste`), breaking out the instant a key of `0` is seen
(`if waste == 0 { break; }`).  `bestW` starts at `u8::max_value() = 255` and
`best` at `0` in both call sites. -/
def scanMin (w : α → Nat) : List α → Nat → Nat → Nat → Nat
  | [], _, _, best => best
  | s :: rest, idx, bestW, best =>
    let wv := w s
    let bestW' := if wv < bestW then wv else bestW
    let best' := if wv < bestW then idx else best
    if wv = 0 then best' else scanMin w rest (idx + 1) bestW' best'

/-- The candidate scan of `arrange_slides` (lines 64-84). -/
def findSmallestWaste (current : Slide) (pool : List Slide) : Nat :=
  scanMin (wasteU8 current) pool 0 255 0

/-- The `while !slides.is_empty()` loop of `arrange_slides`: remove the slide
at index `i`, append it to the arrangement, and continue from the index of the
smallest-waste candidate in the remaining pool.  Fuel is the initial length. -/
def arrangeGo : Nat → List Slide → Nat → List Slide
  | _, [], _ => []
  | 0, _ :: _, _ => []
  | fuel + 1, s :: rest0, i =>
    let current := (s :: rest0).getD i default
    let pool := (s :: rest0).eraseIdx i
    current :: arrangeGo fuel pool (findSmallestWaste current pool)

/-- `arrange_slides` (lines 52-89); the `report` printing for input 'b' has no
effect on the result and is omitted. -/
def arrange_slides (slides : List Slide) : List Slide :=
  arrangeGo slides.length slides 0

/-- The per-pair summand of `rate_slideshow` (lines 118-130): common tags are
counted over the NEXT slide's tags, and the score is
`min(common, min(next.number_of_tags, current.number_of_tags) - common)`
in `u8`, then cast to `u32`. -/
def rateStep (current next : Slide) : Nat :=
  let c := u8 (commonTags next.tags current.tags)
  min c (sub8 (min (u8 next.number_of_tags) (u8 current.number_of_tags)) c)

/-- Sum of `rateStep` over consecutive pairs (`for index in 0..len-1`). -/
def ratePairs : List Slide → Nat
  | a :: b :: rest => rateStep a b + ratePairs (b :: rest)
  | _ => 0

/-- `rate_slideshow` (lines 115-133).  On an empty slideshow the source
evaluates `0..slides.len() - 1` on `usize` and indexes out of bounds: a panic,
modelled as `none`.  The `u32` accumulator wraps modulo `2^32`. -/
def rate_slideshow : List Slide → Option Nat
  | [] => none
  | s :: rest => some (ratePairs (s :: rest) % 4294967296)

/-- The horizontal pass-through of `create_slides` (lines 141-147). -/
def toHorizontalSlide (p : Picture) : Slide :=
  { picture_id := p.picture_id
    second_picture_id := none
    orientation := Orientation.Horizontal
    number_of_tags := p.number_of_tags
    tags := p.tags }

/-- The tag merge of `create_slides` (lines 174-178): drain the partner's tags
into the current picture's tag vector, appending each tag not already present.
The result is a deduplicated concatenation, NOT a sorted union. -/
def mergeTags (current partner : List Nat) : List Nat :=
  partner.foldl (fun acc t => if acc.contains t then acc else acc ++ [t]) current

/-- Descending comparison on `number_of_tags`, as used by the
`sort_unstable_by(|x, y| y.number_of_tags.cmp(&x.number_of_tags))` calls. -/
def pictureDesc (x y : Picture) : Prop :=
  y.number_of_tags ≤ x.number_of_tags

instance : DecidableRel pictureDesc :=
  fun x y => Nat.decLe y.number_of_tags x.number_of_tags

instance : IsTotal Picture pictureDesc :=
  ⟨fun x y => Nat.le_total y.number_of_tags x.number_of_tags⟩

instance : IsTrans Picture pictureDesc :=
  ⟨fun _ _ _ h1 h2 => le_trans h2 h1⟩

/-- The sort of the vertical pool (lines 152-153).  `sort_unstable_by` does not
fix the order of ties; the embedding realizes one legal outcome with a stable
insertion sort under the same descending key. -/
def sortVerticals (l : List Picture) : List Picture :=
  List.insertionSort pictureDesc l

/-- The partner scan of `create_slides` (lines 156-172): the key is the `u8`
overlap counter (called `waste` in the source), same early-exit-on-zero and
strict-improvement structure as the tour scan. -/
def pairScan (current : Picture) (pool : List Picture) : Nat :=
  scanMin (fun p => u8 (commonTags current.tags p.tags)) pool 0 255 0

/-- The composite slide built at lines 179-185: primary is the popped
`current` picture, secondary the chosen partner, tags the drained merge, and
`number_of_tags` the truncating cast `tags.len() as u8`. -/
def pairSlide (current partner : Picture) : Slide :=
  { picture_id := current.picture_id
    second_picture_id := some partner.picture_id
    orientation := Orientation.Vertical
    number_of_tags := u8 (mergeTags current.tags partner.tags).length
    tags := mergeTags current.tags partner.tags }

/-- The `while !vertical_pictures.is_empty()` pairing loop (lines 154-186).
`pop()` takes the LAST element of the descending-sorted pool (the remaining
picture with the fewest tags).  When the pool held exactly one picture, the
partner scan runs over an empty vector and `remove(0)` panics: `none`. -/
def pairLoop : Nat → List Picture → Option (List Slide)
  | _, [] => some []
  | 0, _ :: _ => none
  | fuel + 1, p :: ps =>
    let current := (p :: ps).getLastD default
    let rest := (p :: ps).dropLast
    match rest with
    | [] => none
    | r :: rs =>
      let j := pairScan current (r :: rs)
      let partner := (r :: rs).getD j default
      (pairLoop fuel ((r :: rs).eraseIdx j)).map (fun out => pairSlide current partner :: out)

/-- `create_slides` (lines 135-188): horizontal pictures pass through in input
order; vertical pictures are sorted descending by `number_of_tags` and paired. -/
def create_slides (pictures : List Picture) : Option (List Slide) :=
  let horizontalSlides :=
    (pictures.filter (fun p => p.orientation == Orientation.Horizontal)).map toHorizontalSlide
  let verticals := pictures.filter (fun p => p.orientation == Orientation.Vertical)
  let sorted := sortVerticals verticals
  (pairLoop sorted.length sorted).map (fun comps => horizontalSlides ++ comps)

/-- Descending comparison on `number_of_tags` for slides (`sort_slides`). -/
def slideDesc (x y : Slide) : Prop :=
  y.number_of_tags ≤ x.number_of_tags

instance : DecidableRel slideDesc :=
  fun x y => Nat.decLe y.number_of_tags x.number_of_tags

instance : IsTotal Slide slideDesc :=
  ⟨fun x y => Nat.le_total y.number_of_tags x.number_of_tags⟩

instance : IsTrans Slide slideDesc :=
  ⟨fun _ _ _ h1 h2 => le_trans h2 h1⟩

/-- `sort_slides` (lines 91-94). -/
def sort_slides (slides : List Slide) : List Slide :=
  List.insertionSort slideDesc slides

/-- Data-model invariant of the spec (§3): a slide's tag sequence is
duplicate-free, `number_of_tags` is its length, and it fits in `u8`. -/
def wfSlide (s : Slide) : Prop :=
  s.tags.Nodup ∧ s.number_of_tags = s.tags.length ∧ s.tags.length ≤ 255

instance : DecidablePred wfSlide := fun s => by
  unfold wfSlide; infer_instance

/-- Spec §4.1, `commonCount(A, B)`: the number of tags present in both
sequences (counted over `A`). -/
def specCommonCount (a b : List Nat) : Nat :=
  (a.filter fun t => t ∈ b).length

/-- Spec §4.1:
`interestScore(A, B) = min(commonCount, |A| - commonCount, |B| - commonCount)`. -/
def specInterestScore (a b : List Nat) : Nat :=
  let c := specCommonCount a b
  min c (min (a.length - c) (b.length - c))

/-- Spec §4.4: the Arrangement Rater sums `interestScore` over every
consecutive pair of the arrangement. -/
def specRateSum : List Slide → Nat
  | a :: b :: rest => specInterestScore a.tags b.tags + specRateSum (b :: rest)
  | _ => 0

/-- Spec §4.1, `waste(A, B)`: with `common = commonCount(A,B)`,
`leftOnly = |A| - common`, `rightOnly = |B| - common`, `score =
interestScore(A,B)`, the value `(leftOnly - score) + (rightOnly - score) +
(common - score)`. -/
def specWaste (a b : List Nat) : Nat :=
  let c := specCommonCount a b
  let leftOnly := a.length - c
  let rightOnly := b.length - c
  let score := specInterestScore a b
  (leftOnly - score) + (rightOnly - score) + (c - score)

/-- 128 pairwise-distinct tags `0..127`. -/
def tagsLow : List Nat := List.range 128

/-- 128 pairwise-distinct tags `128..255`, disjoint from `tagsLow`. -/
def tagsHigh : List Nat := (List.range 128).map (fun n => n + 128)

/-! ## Arithmetic helper lemmas -/

theorem u8_lt (n : Nat) : u8 n < 256 := by
  unfold u8; omega

theorem u8_eq_of_le (h : n ≤ 255) : u8 n = n := by
  unfold u8; omega

theorem sub8_lt (a b : Nat) : sub8 a b < 256 := by
  unfold sub8 u8; omega

theorem sub8_exact (h : b ≤ a) (ha : a ≤ 255) : sub8 a b = a - b := by
  unfold sub8 u8; omega

theorem add8_exact (h : a + b ≤ 255) : add8 a b = a + b := by
  unfold add8 u8; omega

/-- The full wrapping chain `l - s + r - s + c - s` of the waste computation
agrees with the mathematical value when every intermediate fits in `u8` and
every subtraction is in range. -/
theorem chain8 (l r c s : Nat) (hsl : s ≤ l) (hsr : s ≤ r) (hsc : s ≤ c)
    (h5 : l + r ≤ 255 + s) (h6 : l + r + c ≤ 255 + 2 * s) :
    sub8 (add8 (sub8 (add8 (sub8 l s) r) s) c) s = (l - s) + (r - s) + (c - s) := by
  have hl : l ≤ 255 := by omega
  rw [sub8_exact hsl hl]
  rw [add8_exact (show (l - s) + r ≤ 255 by omega)]
  rw [sub8_exact (show s ≤ (l - s) + r by omega) (by omega)]
  rw [add8_exact (show ((l - s) + r - s) + c ≤ 255 by omega)]
  rw [sub8_exact (show s ≤ (l - s) + r - s + c by omega) (by omega)]
  omega

theorem wasteU8_lt (current candidate : Slide) : wasteU8 current candidate < 256 := by
  simp only [wasteU8]; exact sub8_lt ..

/-! ## Common-tag counting lemmas -/

theorem commonTags_eq_spec (a b : List Nat) : commonTags a b = specCommonCount a b := by
  unfold commonTags specCommonCount
  rw [List.countP_eq_length_filter]
  congr 1
  apply List.filter_congr
  intro x _
  simp [List.contains]

theorem commonTags_le_left (a b : List Nat) : commonTags a b ≤ a.length :=
  List.countP_le_length _

theorem specCommonCount_le_left (a b : List Nat) : specCommonCount a b ≤ a.length :=
  (commonTags_eq_spec a b) ▸ commonTags_le_left a b

theorem specCommonCount_le_right (a b : List Nat) (ha : a.Nodup) :
    specCommonCount a b ≤ b.length := by
  unfold specCommonCount
  apply List.Subperm.length_le
  apply List.Nodup.subperm (ha.filter _)
  intro x hx
  have := List.of_mem_filter hx
  simpa using this

theorem commonTags_le_right (a b : List Nat) (ha : a.Nodup) :
    commonTags a b ≤ b.length :=
  (commonTags_eq_spec a b) ▸ specCommonCount_le_right a b ha

theorem specCommonCount_eq_card (a b : List Nat) (ha : a.Nodup) :
    specCommonCount a b = (a.toFinset ∩ b.toFinset).card := by
  unfold specCommonCount
  rw [← List.toFinset_card_of_nodup (ha.filter _), List.toFinset_filter]
  congr 1
  ext x
  simp

theorem specCommonCount_comm (a b : List Nat) (ha : a.Nodup) (hb : b.Nodup) :
    specCommonCount a b = specCommonCount b a := by
  rw [specCommonCount_eq_card a b ha, specCommonCount_eq_card b a hb, Finset.inter_comm]

/-! ## The greedy scan: specification -/

/-- Unfolding equation for one step of `scanMin`. -/
theorem scanMin_cons (w : α → Nat) (s : α) (rest : List α) (idx bestW best : Nat) :
    scanMin w (s :: rest) idx bestW best =
      if w s = 0 then (if w s < bestW then idx else best)
      else scanMin w rest (idx + 1) (if w s < bestW then w s else bestW)
        (if w s < bestW then idx else best) := rfl

/-- Full specification of the scan: either no element beats `bestW` and the
incoming `best` is returned, or the result is the index (offset by `idx`) of
the FIRST element attaining the minimum key over the whole pool; the
early exit on key `0` is absorbed because `0` is the global minimum. -/
theorem scanMin_spec (w : α → Nat) (d : α) :
    ∀ (pool : List α) (idx bestW best : Nat),
      (scanMin w pool idx bestW best = best ∧
        ∀ k, k < pool.length → bestW ≤ w (pool.getD k d)) ∨
      (∃ j, j < pool.length ∧ scanMin w pool idx bestW best = idx + j ∧
        w (pool.getD j d) < bestW ∧
        (∀ m, m < j → w (pool.getD j d) < w (pool.getD m d)) ∧
        (∀ m, m < pool.length → w (pool.getD j d) ≤ w (pool.getD m d))) := by
  intro pool
  induction pool with
  | nil =>
    intro idx bestW best
    left
    constructor
    · rfl
    · intro k hk; simp at hk
  | cons s rest ih =>
    intro idx bestW best
    rw [scanMin_cons]
    by_cases h0 : w s = 0
    · simp only [if_pos h0]
      by_cases hlt : w s < bestW
      · simp only [if_pos hlt]
        right
        refine ⟨0, by simp, by omega, ?_, ?_, ?_⟩
        · simpa using hlt
        · intro m hm; omega
        · intro m _
          simp only [List.getD_cons_zero, h0]
          omega
      · simp only [if_neg hlt]
        left
        refine ⟨by trivial, ?_⟩
        intro k _; omega
    · simp only [if_neg h0]
      by_cases hlt : w s < bestW
      · simp only [if_pos hlt]
        rcases ih (idx + 1) (w s) idx with ⟨hres, hall⟩ | ⟨j, hjlen, hres, hjlt, hfirst, hmin⟩
        · right
          refine ⟨0, by simp, by rw [hres]; omega, by simpa using hlt, ?_, ?_⟩
          · intro m hm; omega
          · intro m hm
            match m with
            | 0 => simp
            | Nat.succ m' =>
              simp only [List.getD_cons_zero, List.getD_cons_succ]
              exact hall m' (by simpa using hm)
        · right
          refine ⟨j + 1, by simpa using hjlen, ?_, ?_, ?_, ?_⟩
          · rw [hres]; omega
          · simp only [List.getD_cons_succ]; omega
          · intro m hm
            match m with
            | 0 => simp only [List.getD_cons_succ, List.getD_cons_zero]; omega
            | Nat.succ m' =>
              simp only [List.getD_cons_succ]
              exact hfirst m' (by omega)
          · intro m hm
            match m with
            | 0 => simp only [List.getD_cons_succ, List.getD_cons_zero]; omega
            | Nat.succ m' =>
              simp only [List.getD_cons_succ]
              exact hmin m' (by simpa using hm)
      · simp only [if_neg hlt]
        rcases ih (idx + 1) bestW best with ⟨hres, hall⟩ | ⟨j, hjlen, hres, hjlt, hfirst, hmin⟩
        · left
          refine ⟨hres, ?_⟩
          intro k hk
          match k with
          | 0 => simp only [List.getD_cons_zero]; omega
          | Nat.succ k' =>
            simp only [List.getD_cons_succ]
            exact hall k' (by simpa using hk)
        · right
          refine ⟨j + 1, by simpa using hjlen, ?_, ?_, ?_, ?_⟩
          · rw [hres]; omega
          · simp only [List.getD_cons_succ]; omega
          · intro m hm
            match m with
            | 0 => simp only [List.getD_cons_succ, List.getD_cons_zero]; omega
            | Nat.succ m' =>
              simp only [List.getD_cons_succ]
              exact hfirst m' (by omega)
          · intro m hm
            match m with
            | 0 => simp only [List.getD_cons_succ, List.getD_cons_zero]; omega
            | Nat.succ m' =>
              simp only [List.getD_cons_succ]
              exact hmin m' (by simpa using hm)

/-- At the call sites (`best = 0`) the scan's result is always a valid index
of a non-empty pool. -/
theorem scanMin_lt (w : α → Nat) (pool : List α) (h : pool ≠ []) :
    scanMin w pool 0 255 0 < pool.length := by
  have hd : ∃ d : α, True := by
    cases pool with
    | nil => exact absurd rfl h
    | cons a l => exact ⟨a, trivial⟩
  obtain ⟨d, -⟩ := hd
  rcases scanMin_spec w d pool 0 255 0 with ⟨hres, -⟩ | ⟨j, hjlen, hres, -⟩
  · rw [hres]; exact List.length_pos.mpr h
  · rw [hres]; simpa using hjlen

theorem findSmallestWaste_lt (current : Slide) (pool : List Slide) (h : pool ≠ []) :
    findSmallestWaste current pool < pool.length :=
  scanMin_lt (wasteU8 current) pool h

theorem pairScan_lt (current : Picture) (pool : List Picture) (h : pool ≠ []) :
    pairScan current pool < pool.length := by
  unfold pairScan
  exact scanMin_lt _ pool h

/-! ## The tour builder: permutation -/

theorem getD_cons_eraseIdx_perm (d : α) :
    ∀ (l : List α) (i : Nat), i < l.length → (l.getD i d :: l.eraseIdx i).Perm l := by
  intro l
  induction l with
  | nil => intro i hi; simp at hi
  | cons a t ih =>
    intro i hi
    match i with
    | 0 => simp [List.Perm.refl]
    | Nat.succ i' =>
      simp only [List.getD_cons_succ, List.eraseIdx_cons_succ]
      have step1 : (t.getD i' d :: a :: t.eraseIdx i').Perm
          (a :: t.getD i' d :: t.eraseIdx i') := List.Perm.swap a (t.getD i' d) _
      have step2 : (a :: t.getD i' d :: t.eraseIdx i').Perm (a :: t) :=
        (ih i' (by simpa using hi)).cons a
      exact step1.trans step2

theorem arrangeGo_perm :
    ∀ (fuel : Nat) (pool : List Slide) (i : Nat), pool.length ≤ fuel →
      i < pool.length → (arrangeGo fuel pool i).Perm pool := by
  intro fuel
  induction fuel with
  | zero =>
    intro pool i hfuel hi
    omega
  | succ fuel ih =>
    intro pool i hfuel hi
    match pool with
    | [] => simp at hi
    | s :: rest0 =>
      show ((s :: rest0).getD i default ::
        arrangeGo fuel ((s :: rest0).eraseIdx i)
          (findSmallestWaste ((s :: rest0).getD i default) ((s :: rest0).eraseIdx i))).Perm
        (s :: rest0)
      have hlen : ((s :: rest0).eraseIdx i).length = (s :: rest0).length - 1 := by
        rw [List.length_eraseIdx]
        have hi' : i < rest0.length + 1 := by simpa using hi
        simp only [List.length_cons]
        rw [if_pos hi']
      by_cases hne : (s :: rest0).eraseIdx i = []
      · have hrest : rest0 = [] := by
          rw [hne] at hlen
          simp at hlen
          exact List.length_eq_zero.mp (by omega)
        subst hrest
        have hi0 : i = 0 := by
          simp at hi
          omega
        subst hi0
        simp [arrangeGo]
      · have hjlt : findSmallestWaste ((s :: rest0).getD i default)
            ((s :: rest0).eraseIdx i) < ((s :: rest0).eraseIdx i).length :=
          findSmallestWaste_lt _ _ hne
        have hrec : (arrangeGo fuel ((s :: rest0).eraseIdx i)
            (findSmallestWaste ((s :: rest0).getD i default)
              ((s :: rest0).eraseIdx i))).Perm ((s :: rest0).eraseIdx i) := by
          apply ih
          · simp only [List.length_cons] at hfuel hlen
            omega
          · exact hjlt
        exact (hrec.cons _).trans (getD_cons_eraseIdx_perm default (s :: rest0) i hi)

/-! ## The tag merge: deduplicated concatenation -/

theorem mergeTags_foldl_nodup :
    ∀ (ps acc : List Nat), acc.Nodup →
      (ps.foldl (fun acc t => if acc.contains t then acc else acc ++ [t]) acc).Nodup := by
  intro ps
  induction ps with
  | nil => intro acc h; exact h
  | cons q qs ih =>
    intro acc h
    simp only [List.foldl_cons]
    apply ih
    by_cases hq : q ∈ acc
    · have hstep : (if acc.contains q then acc else acc ++ [q]) = acc := by
        simp [List.contains, hq]
      rw [hstep]
      exact h
    · have hstep : (if acc.contains q then acc else acc ++ [q]) = acc ++ [q] := by
        simp [List.contains, hq]
      rw [hstep]
      simp [List.nodup_append, h, hq]

theorem mergeTags_foldl_mem :
    ∀ (ps acc : List Nat) (t : Nat),
      t ∈ ps.foldl (fun acc t => if acc.contains t then acc else acc ++ [t]) acc ↔
        t ∈ acc ∨ t ∈ ps := by
  intro ps
  induction ps with
  | nil => intro acc t; simp
  | cons q qs ih =>
    intro acc t
    simp only [List.foldl_cons]
    rw [ih]
    by_cases hq : q ∈ acc
    · have hstep : (if acc.contains q then acc else acc ++ [q]) = acc := by
        simp [List.contains, hq]
      rw [hstep]
      simp only [List.mem_cons]
      constructor
      · rintro (h | h)
        · exact Or.inl h
        · exact Or.inr (Or.inr h)
      · rintro (h | h | h)
        · exact Or.inl h
        · exact Or.inl (h ▸ hq)
        · exact Or.inr h
    · have hstep : (if acc.contains q then acc else acc ++ [q]) = acc ++ [q] := by
        simp [List.contains, hq]
      rw [hstep]
      simp only [List.mem_append, List.mem_cons, List.not_mem_nil, or_false]
      tauto

theorem mergeTags_nodup (current partner : List Nat) (h : current.Nodup) :
    (mergeTags current partner).Nodup :=
  mergeTags_foldl_nodup partner current h

theorem mergeTags_mem (current partner : List Nat) (t : Nat) :
    t ∈ mergeTags current partner ↔ t ∈ current ∨ t ∈ partner :=
  mergeTags_foldl_mem partner current t

/-! ## The pairing loop: unfolding and invariants -/

theorem pairLoop_single (fuel : Nat) (x : Picture) :
    pairLoop (fuel + 1) [x] = none := rfl

theorem pairLoop_zero (p : Picture) (ps : List Picture) :
    pairLoop 0 (p :: ps) = none := rfl

/-- One iteration of the pairing loop on a pool of at least two pictures,
written with the pool split as `init ++ [last]`: the popped current picture is
`last`, the partner is chosen by the scan over `init`, and the loop recurses
on `init` minus the partner. -/
theorem pairLoop_step (fuel : Nat) (r last : Picture) (rs : List Picture) :
    pairLoop (fuel + 1) ((r :: rs) ++ [last]) =
      (pairLoop fuel ((r :: rs).eraseIdx (pairScan last (r :: rs)))).map
        (fun out =>
          pairSlide last ((r :: rs).getD (pairScan last (r :: rs)) default) :: out) := by
  have h1 : (r :: (rs ++ [last])).getLastD default = last := by
    rw [List.getLastD_eq_getLast?, ← List.cons_append, List.getLast?_concat]
    rfl
  have h2 : (r :: (rs ++ [last])).dropLast = r :: rs := by
    rw [← List.cons_append, List.dropLast_concat]
  rw [List.cons_append]
  simp only [pairLoop]
  rw [h1, h2]

theorem pairLoop_success :
    ∀ (fuel : Nat) (pool : List Picture), pool.length ≤ fuel → pool.length % 2 = 0 →
      ∃ out, pairLoop fuel pool = some out ∧ out.length = pool.length / 2 ∧
        ∀ s ∈ out, s.orientation = Orientation.Vertical := by
  intro fuel
  induction fuel with
  | zero =>
    intro pool hf _
    have hnil : pool = [] := List.eq_nil_of_length_eq_zero (by omega)
    subst hnil
    exact ⟨[], rfl, rfl, by intro s hs; simp at hs⟩
  | succ fuel ih =>
    intro pool hf hp
    match pool with
    | [] => exact ⟨[], rfl, rfl, by intro s hs; simp at hs⟩
    | p :: ps =>
      rcases List.eq_nil_or_concat (p :: ps) with h | ⟨L, b, hL⟩
      · simp at h
      · rw [List.concat_eq_append] at hL
        have hlen : (p :: ps).length = L.length + 1 := by rw [hL]; simp
        have hL2 : L.length % 2 = 1 := by
          simp only [List.length_cons] at hp hlen ⊢
          omega
        have hLne : L ≠ [] := by
          intro h0
          rw [h0] at hL2
          simp at hL2
        match L, hLne with
        | r :: rs, _ =>
          have hj : pairScan b (r :: rs) < (r :: rs).length :=
            pairScan_lt b (r :: rs) (by simp)
          have herase : ((r :: rs).eraseIdx (pairScan b (r :: rs))).length =
              (r :: rs).length - 1 := by
            rw [List.length_eraseIdx, if_pos hj]
          obtain ⟨out, hout, houtlen, houtor⟩ :=
            ih ((r :: rs).eraseIdx (pairScan b (r :: rs)))
              (by simp only [List.length_cons] at hf hlen herase ⊢; omega)
              (by simp only [List.length_cons] at hL2 herase ⊢; omega)
          refine ⟨pairSlide b ((r :: rs).getD (pairScan b (r :: rs)) default) :: out,
            ?_, ?_, ?_⟩
          · rw [hL, pairLoop_step, hout]
            rfl
          · simp only [List.length_cons] at hlen herase houtlen ⊢
            omega
          · intro s hs
            rcases List.mem_cons.mp hs with h | h
            · rw [h]; rfl
            · exact houtor s h

theorem pairLoop_tags_nodup :
    ∀ (fuel : Nat) (pool : List Picture) (out : List Slide),
      pairLoop fuel pool = some out → (∀ p ∈ pool, p.tags.Nodup) →
      ∀ s ∈ out, s.tags.Nodup := by
  intro fuel
  induction fuel with
  | zero =>
    intro pool out hout _ s hs
    match pool with
    | [] =>
      have hout2 : (some ([] : List Slide)) = some out := hout
      have hnil : out = [] := (Option.some.inj hout2).symm
      subst hnil
      simp at hs
    | p :: ps =>
      rw [pairLoop_zero] at hout
      exact absurd hout (by simp)
  | succ fuel ih =>
    intro pool out hout htags s hs
    match pool with
    | [] =>
      have hout2 : (some ([] : List Slide)) = some out := hout
      have hnil : out = [] := (Option.some.inj hout2).symm
      subst hnil
      simp at hs
    | p :: ps =>
      rcases List.eq_nil_or_concat (p :: ps) with h | ⟨L, b, hL⟩
      · simp at h
      · rw [List.concat_eq_append] at hL
        match L with
        | [] =>
          rw [hL] at hout
          simp only [List.nil_append] at hout
          rw [pairLoop_single] at hout
          exact absurd hout (by simp)
        | r :: rs =>
          rw [hL, pairLoop_step] at hout
          obtain ⟨out', hout', houtcons⟩ := Option.map_eq_some'.mp hout
          subst houtcons
          have hbmem : b ∈ p :: ps := by rw [hL]; simp
          rcases List.mem_cons.mp hs with h | h
          · rw [h]
            exact mergeTags_nodup _ _ (htags b hbmem)
          · apply ih _ _ hout' _ s h
            intro q hq
            apply htags
            rw [hL]
            have hsub : List.Sublist ((r :: rs).eraseIdx (pairScan b (r :: rs))) (r :: rs) :=
              List.eraseIdx_sublist _ _
            exact List.mem_append_left _ (hsub.subset hq)

theorem pairLoop_distinct_ids :
    ∀ (fuel : Nat) (pool : List Picture) (out : List Slide),
      pairLoop fuel pool = some out → ((pool.map Picture.picture_id)).Nodup →
      ∀ s ∈ out, ∃ k, s.second_picture_id = some k ∧ k ≠ s.picture_id := by
  intro fuel
  induction fuel with
  | zero =>
    intro pool out hout _ s hs
    match pool with
    | [] =>
      have hout2 : (some ([] : List Slide)) = some out := hout
      have hnil : out = [] := (Option.some.inj hout2).symm
      subst hnil
      simp at hs
    | p :: ps =>
      rw [pairLoop_zero] at hout
      exact absurd hout (by simp)
  | succ fuel ih =>
    intro pool out hout hids s hs
    match pool with
    | [] =>
      have hout2 : (some ([] : List Slide)) = some out := hout
      have hnil : out = [] := (Option.some.inj hout2).symm
      subst hnil
      simp at hs
    | p :: ps =>
      rcases List.eq_nil_or_concat (p :: ps) with h | ⟨L, b, hL⟩
      · simp at h
      · rw [List.concat_eq_append] at hL
        match L with
        | [] =>
          rw [hL] at hout
          simp only [List.nil_append] at hout
          rw [pairLoop_single] at hout
          exact absurd hout (by simp)
        | r :: rs =>
          rw [hL, pairLoop_step] at hout
          obtain ⟨out', hout', houtcons⟩ := Option.map_eq_some'.mp hout
          subst houtcons
          rw [hL] at hids
          have hids' : (((r :: rs).map Picture.picture_id) ++ [b.picture_id]).Nodup := by
            simpa using hids
          have hnotin : b.picture_id ∉ (r :: rs).map Picture.picture_id := by
            rw [List.nodup_append] at hids'
            intro hmem
            exact hids'.2.2 hmem (by simp)
          rcases List.mem_cons.mp hs with h | h
          · rw [h]
            refine ⟨((r :: rs).getD (pairScan b (r :: rs)) default).picture_id, rfl, ?_⟩
            have hpid : (pairSlide b ((r :: rs).getD (pairScan b (r :: rs))
                default)).picture_id = b.picture_id := rfl
            rw [hpid]
            intro heq
            apply hnotin
            have hj : pairScan b (r :: rs) < (r :: rs).length :=
              pairScan_lt b (r :: rs) (by simp)
            have hpm : (r :: rs).getD (pairScan b (r :: rs)) default ∈ r :: rs := by
              rw [List.getD_eq_getElem _ _ hj]
              exact List.getElem_mem hj
            rw [← heq]
            exact List.mem_map_of_mem Picture.picture_id hpm
          · apply ih _ _ hout' _ s h
            have hsub : List.Sublist ((r :: rs).eraseIdx (pairScan b (r :: rs))) (r :: rs) :=
              List.eraseIdx_sublist _ _
            exact (List.nodup_append.mp hids').1.sublist (hsub.map _)

/-! ## The vertical pool: descending order, and the popped current picture -/

theorem sortVerticals_sorted (l : List Picture) :
    List.Sorted pictureDesc (sortVerticals l) :=
  List.sorted_insertionSort pictureDesc l

/-- In a pool sorted descending by `number_of_tags`, the picture taken by
`pop()` (the last one) has the fewest tags of the whole pool. -/
theorem getLastD_min_of_sorted (pool : List Picture) (h : pool ≠ [])
    (hs : List.Sorted pictureDesc pool) :
    ∀ p ∈ pool, (pool.getLastD default).number_of_tags ≤ p.number_of_tags := by
  rcases List.eq_nil_or_concat pool with hnil | ⟨L, b, hL⟩
  · exact absurd hnil h
  · rw [List.concat_eq_append] at hL
    subst hL
    have hlast : (L ++ [b]).getLastD default = b := by
      rw [List.getLastD_eq_getLast?, List.getLast?_concat]
      rfl
    rw [hlast]
    intro p hp
    rcases List.mem_append.mp hp with hpL | hpb
    · exact (List.pairwise_append.mp hs).2.2 p hpL b (by simp)
    · have hpbeq : p = b := by simpa using hpb
      rw [hpbeq]

/-! ## The rater: agreement with the spec formula -/

theorem rateStep_eq_spec (a b : Slide) (ha : wfSlide a) (hb : wfSlide b) :
    rateStep a b = specInterestScore a.tags b.tags := by
  obtain ⟨hanodup, halen, hamax⟩ := ha
  obtain ⟨hbnodup, hblen, hbmax⟩ := hb
  have hc : commonTags b.tags a.tags = specCommonCount a.tags b.tags := by
    rw [commonTags_eq_spec, specCommonCount_comm b.tags a.tags hbnodup hanodup]
  have hcb : specCommonCount a.tags b.tags ≤ b.tags.length :=
    specCommonCount_le_right _ _ hanodup
  have hca : specCommonCount a.tags b.tags ≤ a.tags.length :=
    specCommonCount_le_left _ _
  simp only [rateStep]
  rw [hc, halen, hblen]
  rw [u8_eq_of_le (show specCommonCount a.tags b.tags ≤ 255 by omega)]
  rw [u8_eq_of_le hbmax, u8_eq_of_le hamax]
  rw [sub8_exact (by omega) (by omega)]
  simp only [specInterestScore]
  omega

theorem ratePairs_eq_spec :
    ∀ slides : List Slide, (∀ s ∈ slides, wfSlide s) →
      ratePairs slides = specRateSum slides := by
  intro slides
  induction slides with
  | nil => intro _; rfl
  | cons a rest ih =>
    intro hwf
    match rest with
    | [] => rfl
    | b :: rest' =>
      show rateStep a b + ratePairs (b :: rest') =
        specInterestScore a.tags b.tags + specRateSum (b :: rest')
      rw [rateStep_eq_spec a b (hwf a (by simp)) (hwf b (by simp)),
        ih (fun s hs => hwf s (List.mem_cons_of_mem a hs))]

/-! ## The waste metric: agreement with the spec formula in range -/

theorem wasteU8_eq_spec (A B : Slide) (ha : wfSlide A) (hb : wfSlide B)
    (hsize : A.tags.length + B.tags.length ≤ 255) :
    wasteU8 A B = specWaste A.tags B.tags := by
  obtain ⟨hanodup, halen, _⟩ := ha
  obtain ⟨hbnodup, hblen, _⟩ := hb
  have hc : commonTags A.tags B.tags = specCommonCount A.tags B.tags :=
    commonTags_eq_spec _ _
  have hca : specCommonCount A.tags B.tags ≤ A.tags.length :=
    specCommonCount_le_left _ _
  have hcb : specCommonCount A.tags B.tags ≤ B.tags.length :=
    specCommonCount_le_right _ _ hanodup
  simp only [wasteU8]
  rw [hc, halen, hblen]
  set c := specCommonCount A.tags B.tags with hcdef
  rw [u8_eq_of_le (show c ≤ 255 by omega)]
  rw [sub8_exact (show c ≤ A.tags.length by omega) (by omega)]
  rw [sub8_exact (show c ≤ B.tags.length by omega) (by omega)]
  rw [chain8 (A.tags.length - c) (B.tags.length - c) c
    (min c (min (A.tags.length - c) (B.tags.length - c)))
    (by omega) (by omega) (by omega) (by omega) (by omega)]
  simp only [specWaste, specInterestScore]

/-- Splitting a successful `create_slides` run into its horizontal pass-through
slides and the pairing loop's composite slides. -/
theorem create_slides_eq (pictures : List Picture) (out : List Slide)
    (hout : create_slides pictures = some out) :
    ∃ comps,
      pairLoop
        (sortVerticals (pictures.filter
          (fun p => p.orientation == Orientation.Vertical))).length
        (sortVerticals (pictures.filter
          (fun p => p.orientation == Orientation.Vertical))) = some comps ∧
      out = ((pictures.filter (fun p => p.orientation == Orientation.Horizontal)).map
        toHorizontalSlide) ++ comps := by
  simp only [create_slides] at hout
  obtain ⟨comps, h1, h2⟩ := Option.map_eq_some'.mp hout
  exact ⟨comps, h1, h2.symm⟩

/-! ## Claim theorems -/

/-- C1, counterexample.  With two vertical pictures, one with two tags
(id `0`) and one with a single tag (id `1`), the pairing step's current
picture — the primary id of the only emitted composite slide — is the picture
with the FEWEST tags (id `1`), not the one with the most tags (id `0`) as the
claim states: the pool is sorted descending but `pop()` takes from the back. -/
theorem pairing_current_is_fewest_not_most :
    (create_slides [⟨0, Orientation.Vertical, 2, [1, 2]⟩,
        ⟨1, Orientation.Vertical, 1, [3]⟩]).map (List.map Slide.picture_id) =
      some [1] ∧ (1 : Nat) ≠ 0 := by decide

/-- C1, amended: the candidate pool of vertical pictures IS ordered by
descending tag count, but the current picture of each pairing step, popped
from the BACK of the pool, has the fewest tags among the remaining vertical
pictures (sortedness is preserved across steps because each step keeps a
sublist of the pool). -/
theorem pairing_pool_descending_current_fewest :
    (∀ l : List Picture, List.Sorted pictureDesc (sortVerticals l)) ∧
    (∀ pool : List Picture, pool ≠ [] → List.Sorted pictureDesc pool →
      ∀ p ∈ pool, (pool.getLastD default).number_of_tags ≤ p.number_of_tags) :=
  ⟨sortVerticals_sorted, getLastD_min_of_sorted⟩

/-- C1, amended, witness at a concrete two-picture pool. -/
theorem pairing_pool_descending_current_fewest_witness :
    ([⟨0, Orientation.Vertical, 2, [1, 2]⟩, ⟨1, Orientation.Vertical, 1, [3]⟩] :
        List Picture) ≠ [] ∧
    List.Sorted pictureDesc
      [⟨0, Orientation.Vertical, 2, [1, 2]⟩, ⟨1, Orientation.Vertical, 1, [3]⟩] ∧
    (([⟨0, Orientation.Vertical, 2, [1, 2]⟩, ⟨1, Orientation.Vertical, 1, [3]⟩] :
        List Picture).getLastD default).number_of_tags ≤
      (⟨0, Orientation.Vertical, 2, [1, 2]⟩ : Picture).number_of_tags :=
  ⟨by decide, by decide,
    pairing_pool_descending_current_fewest.2
      [⟨0, Orientation.Vertical, 2, [1, 2]⟩, ⟨1, Orientation.Vertical, 1, [3]⟩]
      (by decide) (by decide) ⟨0, Orientation.Vertical, 2, [1, 2]⟩ (by decide)⟩

/-- C2: on an odd number of vertical pictures the pairing loop does NOT
terminate normally dropping the leftover; after popping the final unpaired
picture it calls `vertical_pictures.remove(0)` on an empty vector, an index
out-of-bounds panic (modelled as `none`). -/
theorem pairing_panics_on_odd :
    create_slides [⟨0, Orientation.Vertical, 1, [1]⟩] = none := by decide

/-- C3, counterexample.  The composite slide built from tag lists `[2,3,5]`
and `[1,4]` carries tags `[1,4,2,3,5]` (current's tags followed by the
partner's new tags): deduplicated, but NOT the sorted-ascending union. -/
theorem composite_tags_not_sorted :
    (create_slides [⟨0, Orientation.Vertical, 3, [2, 3, 5]⟩,
        ⟨1, Orientation.Vertical, 2, [1, 4]⟩]).map (List.map Slide.tags) =
      some [[1, 4, 2, 3, 5]] ∧
    ¬ List.Sorted (fun a b : Nat => a < b) [1, 4, 2, 3, 5] := by decide

/-- C3, amended: a composite slide's tag list is the DEDUPLICATED
CONCATENATION of its two pictures' tags — duplicate-free whenever the current
picture's tags are, and containing exactly the union of the two tag sets —
but not sorted; and every slide emitted by a successful `create_slides` run
has duplicate-free tags when all input pictures do. -/
theorem composite_tags_dedup_union :
    (∀ current partner : List Nat, current.Nodup →
      (mergeTags current partner).Nodup ∧
      ∀ t, t ∈ mergeTags current partner ↔ t ∈ current ∨ t ∈ partner) ∧
    (∀ pictures out, create_slides pictures = some out →
      (∀ p ∈ pictures, p.tags.Nodup) → ∀ s ∈ out, s.tags.Nodup) := by
  constructor
  · intro cur ps h
    exact ⟨mergeTags_nodup cur ps h, mergeTags_mem cur ps⟩
  · intro pictures out hout htags s hs
    obtain ⟨comps, hcomp, hsplit⟩ := create_slides_eq pictures out hout
    subst hsplit
    rcases List.mem_append.mp hs with hh | hc
    · obtain ⟨p, hp1, hp2⟩ := List.mem_map.mp hh
      rw [← hp2]
      exact htags p ((List.filter_sublist pictures).subset hp1)
    · apply pairLoop_tags_nodup _ _ _ hcomp _ s hc
      intro q hq
      have hperm : (sortVerticals (pictures.filter
          (fun p => p.orientation == Orientation.Vertical))).Perm
          (pictures.filter (fun p => p.orientation == Orientation.Vertical)) :=
        List.perm_insertionSort _ _
      exact htags q ((List.filter_sublist pictures).subset (hperm.subset hq))

/-- C3, amended, witness at the concrete counterexample input. -/
theorem composite_tags_dedup_union_witness :
    ([1, 4] : List Nat).Nodup ∧ (mergeTags [1, 4] [2, 3, 5]).Nodup ∧
    ((2 : Nat) ∈ mergeTags [1, 4] [2, 3, 5] ↔ 2 ∈ [1, 4] ∨ (2 : Nat) ∈ [2, 3, 5]) ∧
    (∀ s ∈ [(⟨1, some 0, Orientation.Vertical, 5, [1, 4, 2, 3, 5]⟩ : Slide)],
      s.tags.Nodup) :=
  ⟨by decide, (composite_tags_dedup_union.1 [1, 4] [2, 3, 5] (by decide)).1,
    (composite_tags_dedup_union.1 [1, 4] [2, 3, 5] (by decide)).2 2,
    composite_tags_dedup_union.2
      [⟨0, Orientation.Vertical, 3, [2, 3, 5]⟩, ⟨1, Orientation.Vertical, 2, [1, 4]⟩]
      [⟨1, some 0, Orientation.Vertical, 5, [1, 4, 2, 3, 5]⟩]
      (by decide) (by decide)⟩

/-- C4: the index returned by the candidate scan — the slide `arrange_slides`
then makes the next current slide — is a valid index of the non-empty pool,
its (u8) waste relative to the just-appended slide is minimal over the whole
remaining pool, and every earlier scan index has strictly larger waste: among
ties at the minimum, the first-encountered index wins. -/
theorem tour_picks_min_waste_first_index (current : Slide) (pool : List Slide)
    (h : pool ≠ []) :
    findSmallestWaste current pool < pool.length ∧
    (∀ m, m < pool.length →
      wasteU8 current (pool.getD (findSmallestWaste current pool) default) ≤
        wasteU8 current (pool.getD m default)) ∧
    (∀ m, m < findSmallestWaste current pool →
      wasteU8 current (pool.getD (findSmallestWaste current pool) default) <
        wasteU8 current (pool.getD m default)) := by
  unfold findSmallestWaste
  rcases scanMin_spec (wasteU8 current) default pool 0 255 0 with
    ⟨hres, hall⟩ | ⟨j, hjlen, hres, hjlt, hfirst, hmin⟩
  · rw [hres]
    refine ⟨List.length_pos.mpr h, ?_, ?_⟩
    · intro m hm
      have h0 : 0 < pool.length := List.length_pos.mpr h
      have hw0 : wasteU8 current (pool.getD 0 default) < 256 := wasteU8_lt ..
      have ha := hall 0 h0
      have hb := hall m hm
      omega
    · intro m hm
      omega
  · rw [hres]
    simp only [Nat.zero_add]
    exact ⟨hjlen, hmin, hfirst⟩

/-- C4, witness on a concrete two-slide pool. -/
theorem tour_picks_min_waste_first_index_witness :
    ([⟨1, none, Orientation.Horizontal, 2, [1, 2]⟩,
        ⟨2, none, Orientation.Horizontal, 1, [9]⟩] : List Slide) ≠ [] ∧
    (findSmallestWaste ⟨0, none, Orientation.Horizontal, 2, [1, 2]⟩
        [⟨1, none, Orientation.Horizontal, 2, [1, 2]⟩,
         ⟨2, none, Orientation.Horizontal, 1, [9]⟩] <
      ([⟨1, none, Orientation.Horizontal, 2, [1, 2]⟩,
        ⟨2, none, Orientation.Horizontal, 1, [9]⟩] : List Slide).length ∧
    (∀ m, m < ([⟨1, none, Orientation.Horizontal, 2, [1, 2]⟩,
        ⟨2, none, Orientation.Horizontal, 1, [9]⟩] : List Slide).length →
      wasteU8 ⟨0, none, Orientation.Horizontal, 2, [1, 2]⟩
        ([⟨1, none, Orientation.Horizontal, 2, [1, 2]⟩,
          ⟨2, none, Orientation.Horizontal, 1, [9]⟩].getD
          (findSmallestWaste ⟨0, none, Orientation.Horizontal, 2, [1, 2]⟩
            [⟨1, none, Orientation.Horizontal, 2, [1, 2]⟩,
             ⟨2, none, Orientation.Horizontal, 1, [9]⟩]) default) ≤
        wasteU8 ⟨0, none, Orientation.Horizontal, 2, [1, 2]⟩
          ([⟨1, none, Orientation.Horizontal, 2, [1, 2]⟩,
            ⟨2, none, Orientation.Horizontal, 1, [9]⟩].getD m default)) ∧
    (∀ m, m < findSmallestWaste ⟨0, none, Orientation.Horizontal, 2, [1, 2]⟩
        [⟨1, none, Orientation.Horizontal, 2, [1, 2]⟩,
         ⟨2, none, Orientation.Horizontal, 1, [9]⟩] →
      wasteU8 ⟨0, none, Orientation.Horizontal, 2, [1, 2]⟩
        ([⟨1, none, Orientation.Horizontal, 2, [1, 2]⟩,
          ⟨2, none, Orientation.Horizontal, 1, [9]⟩].getD
          (findSmallestWaste ⟨0, none, Orientation.Horizontal, 2, [1, 2]⟩
            [⟨1, none, Orientation.Horizontal, 2, [1, 2]⟩,
             ⟨2, none, Orientation.Horizontal, 1, [9]⟩]) default) <
        wasteU8 ⟨0, none, Orientation.Horizontal, 2, [1, 2]⟩
          ([⟨1, none, Orientation.Horizontal, 2, [1, 2]⟩,
            ⟨2, none, Orientation.Horizontal, 1, [9]⟩].getD m default))) :=
  ⟨by decide,
    tour_picks_min_waste_first_index ⟨0, none, Orientation.Horizontal, 2, [1, 2]⟩
      [⟨1, none, Orientation.Horizontal, 2, [1, 2]⟩,
       ⟨2, none, Orientation.Horizontal, 1, [9]⟩] (by decide)⟩

/-- C5, counterexample.  On the empty arrangement the rater does not return
the (empty) sum `0`: the source evaluates `0..slides.len() - 1` on `usize`
and panics, modelled as `none`. -/
theorem rater_panics_on_empty :
    rate_slideshow [] = none ∧ rate_slideshow [] ≠ some (specRateSum []) := by
  decide

/-- C5, amended: for every NON-EMPTY arrangement of well-formed slides
(duplicate-free tags, `number_of_tags` equal to the tag-list length, at most
255 tags) whose spec-level score fits in `u32`, the rater returns exactly the
sum over consecutive pairs of the spec's three-way-minimum `interestScore`;
in particular the implementation's two-way formula
`min(common, min(|A|,|B|) - common)` agrees with the spec's three-way
minimum on every pair. -/
theorem rater_sums_spec_interest (slides : List Slide) (hne : slides ≠ [])
    (hwf : ∀ s ∈ slides, wfSlide s) (hbound : specRateSum slides < 4294967296) :
    rate_slideshow slides = some (specRateSum slides) := by
  match slides with
  | [] => exact absurd rfl hne
  | s :: rest =>
    show some (ratePairs (s :: rest) % 4294967296) = _
    rw [ratePairs_eq_spec _ hwf, Nat.mod_eq_of_lt hbound]

/-- C5, amended, witness: the two-slide arrangement `[1,2,3]`, `[2,3,4]`
scores exactly `1`. -/
theorem rater_sums_spec_interest_witness :
    ([⟨0, none, Orientation.Horizontal, 3, [1, 2, 3]⟩,
        ⟨1, none, Orientation.Horizontal, 3, [2, 3, 4]⟩] : List Slide) ≠ [] ∧
    (∀ s ∈ ([⟨0, none, Orientation.Horizontal, 3, [1, 2, 3]⟩,
        ⟨1, none, Orientation.Horizontal, 3, [2, 3, 4]⟩] : List Slide), wfSlide s) ∧
    specRateSum [⟨0, none, Orientation.Horizontal, 3, [1, 2, 3]⟩,
        ⟨1, none, Orientation.Horizontal, 3, [2, 3, 4]⟩] < 4294967296 ∧
    rate_slideshow [⟨0, none, Orientation.Horizontal, 3, [1, 2, 3]⟩,
        ⟨1, none, Orientation.Horizontal, 3, [2, 3, 4]⟩] =
      some (specRateSum [⟨0, none, Orientation.Horizontal, 3, [1, 2, 3]⟩,
        ⟨1, none, Orientation.Horizontal, 3, [2, 3, 4]⟩]) :=
  ⟨by decide, by decide, by decide,
    rater_sums_spec_interest _ (by decide) (by decide) (by decide)⟩

/-- C6: for every input slide list the tour builder's output is a permutation
of the input — same multiset, same length, nothing duplicated or dropped. -/
theorem tour_is_permutation (slides : List Slide) :
    (arrange_slides slides).Perm slides := by
  unfold arrange_slides
  match slides with
  | [] => exact List.Perm.refl _
  | s :: rest => exact arrangeGo_perm _ _ _ (le_refl _) (by simp)

/-- C7: the sequential tour builder is deterministic — it is a pure function
of the slide list (fixed initial index `0`, sequential scan), so two runs on
identical input yield identical arrangements. -/
theorem tour_deterministic (s t : List Slide) (h : s = t) :
    arrange_slides s = arrange_slides t :=
  congrArg arrange_slides h

/-- C7, witness at a concrete input. -/
theorem tour_deterministic_witness :
    ([⟨0, none, Orientation.Horizontal, 1, [1]⟩] : List Slide) =
      [⟨0, none, Orientation.Horizontal, 1, [1]⟩] ∧
    arrange_slides [⟨0, none, Orientation.Horizontal, 1, [1]⟩] =
      arrange_slides [⟨0, none, Orientation.Horizontal, 1, [1]⟩] :=
  ⟨rfl, tour_deterministic _ _ rfl⟩

/-- C8: with an even number `V` of vertical pictures (and pairwise-distinct
picture ids, as ingestion guarantees), `create_slides` succeeds and emits
exactly `V/2` composite (vertical-orientation) slides, each carrying two
distinct picture ids. -/
theorem pairing_emits_half (pictures : List Picture)
    (heven : (pictures.filter
      (fun p => p.orientation == Orientation.Vertical)).length % 2 = 0)
    (hids : (pictures.map Picture.picture_id).Nodup) :
    ∃ out, create_slides pictures = some out ∧
      out.countP (fun s => s.orientation == Orientation.Vertical) =
        (pictures.filter
          (fun p => p.orientation == Orientation.Vertical)).length / 2 ∧
      ∀ s ∈ out, s.orientation = Orientation.Vertical →
        ∃ k, s.second_picture_id = some k ∧ k ≠ s.picture_id := by
  have hperm : (sortVerticals (pictures.filter
      (fun p => p.orientation == Orientation.Vertical))).Perm
      (pictures.filter (fun p => p.orientation == Orientation.Vertical)) :=
    List.perm_insertionSort _ _
  have hlen : (sortVerticals (pictures.filter
      (fun p => p.orientation == Orientation.Vertical))).length =
      (pictures.filter (fun p => p.orientation == Orientation.Vertical)).length :=
    hperm.length_eq
  obtain ⟨comps, hcomp, hclen, hcor⟩ :=
    pairLoop_success _ _ (le_refl _) (by rw [hlen]; exact heven)
  have hidsv : ((pictures.filter
      (fun p => p.orientation == Orientation.Vertical)).map Picture.picture_id).Nodup :=
    hids.sublist ((List.filter_sublist pictures).map _)
  have hidss : ((sortVerticals (pictures.filter
      (fun p => p.orientation == Orientation.Vertical))).map Picture.picture_id).Nodup :=
    ((hperm.map Picture.picture_id).nodup_iff).mpr hidsv
  have hdist := pairLoop_distinct_ids _ _ _ hcomp hidss
  refine ⟨(pictures.filter (fun p => p.orientation == Orientation.Horizontal)).map
    toHorizontalSlide ++ comps, ?_, ?_, ?_⟩
  · simp only [create_slides]
    rw [hcomp]
    rfl
  · rw [List.countP_append]
    have h1 : ((pictures.filter (fun p => p.orientation == Orientation.Horizontal)).map
        toHorizontalSlide).countP (fun s => s.orientation == Orientation.Vertical) = 0 := by
      rw [List.countP_eq_zero]
      intro s hsmem
      obtain ⟨p, _, hp2⟩ := List.mem_map.mp hsmem
      rw [← hp2]
      simp [toHorizontalSlide]
    have h2 : comps.countP (fun s => s.orientation == Orientation.Vertical) =
        comps.length := by
      rw [List.countP_eq_length]
      intro s hsmem
      simp [hcor s hsmem]
    rw [h1, h2, hclen, hlen]
    omega
  · intro s hsmem hsv
    rcases List.mem_append.mp hsmem with hh | hc
    · obtain ⟨p, _, hp2⟩ := List.mem_map.mp hh
      rw [← hp2] at hsv
      simp [toHorizontalSlide] at hsv
    · exact hdist s hc

/-- C8, witness: two vertical pictures pair into exactly one composite slide. -/
theorem pairing_emits_half_witness :
    (([⟨0, Orientation.Vertical, 2, [1, 2]⟩, ⟨1, Orientation.Vertical, 1, [3]⟩] :
        List Picture).filter
      (fun p => p.orientation == Orientation.Vertical)).length % 2 = 0 ∧
    (([⟨0, Orientation.Vertical, 2, [1, 2]⟩, ⟨1, Orientation.Vertical, 1, [3]⟩] :
        List Picture).map Picture.picture_id).Nodup ∧
    (∃ out, create_slides [⟨0, Orientation.Vertical, 2, [1, 2]⟩,
        ⟨1, Orientation.Vertical, 1, [3]⟩] = some out ∧
      out.countP (fun s => s.orientation == Orientation.Vertical) =
        (([⟨0, Orientation.Vertical, 2, [1, 2]⟩, ⟨1, Orientation.Vertical, 1, [3]⟩] :
            List Picture).filter
          (fun p => p.orientation == Orientation.Vertical)).length / 2 ∧
      ∀ s ∈ out, s.orientation = Orientation.Vertical →
        ∃ k, s.second_picture_id = some k ∧ k ≠ s.picture_id) :=
  ⟨by decide, by decide, pairing_emits_half _ (by decide) (by decide)⟩

/-- C9, counterexample.  For two WELL-FORMED slides with 128 disjoint tags
each, the `u8` waste computed by the tour builder wraps to `0`, while the
spec formula `(leftOnly - score) + (rightOnly - score) + (common - score)`
evaluates to `256`: the claimed equation fails on the code. -/
theorem waste_formula_wraps :
    wfSlide ⟨0, none, Orientation.Horizontal, 128, tagsLow⟩ ∧
    wfSlide ⟨1, none, Orientation.Horizontal, 128, tagsHigh⟩ ∧
    wasteU8 ⟨0, none, Orientation.Horizontal, 128, tagsLow⟩
      ⟨1, none, Orientation.Horizontal, 128, tagsHigh⟩ = 0 ∧
    specWaste tagsLow tagsHigh = 256 ∧ (0 : Nat) ≠ 256 := by
  decide

/-- C9, amended: whenever the two slides are well-formed and their tag
counts sum to at most 255 (so that no intermediate `u8` value wraps), the
tour builder's waste equals the spec formula
`(leftOnly - score) + (rightOnly - score) + (common - score)`; and on the
spec's example `A = [1,2,3]`, `B = [2,3,4]` the values are `commonCount = 2`,
`interestScore = 1`, `waste = 1` exactly as claimed. -/
theorem waste_formula_in_range :
    (∀ A B : Slide, wfSlide A → wfSlide B →
      A.tags.length + B.tags.length ≤ 255 →
      wasteU8 A B = specWaste A.tags B.tags) ∧
    commonTags [1, 2, 3] [2, 3, 4] = 2 ∧
    specCommonCount [1, 2, 3] [2, 3, 4] = 2 ∧
    specInterestScore [1, 2, 3] [2, 3, 4] = 1 ∧
    wasteU8 ⟨0, none, Orientation.Horizontal, 3, [1, 2, 3]⟩
      ⟨1, none, Orientation.Horizontal, 3, [2, 3, 4]⟩ = 1 ∧
    specWaste [1, 2, 3] [2, 3, 4] = 1 :=
  ⟨wasteU8_eq_spec, by decide, by decide, by decide, by decide, by decide⟩

/-- C9, amended, witness at the spec's example pair. -/
theorem waste_formula_in_range_witness :
    wfSlide ⟨0, none, Orientation.Horizontal, 3, [1, 2, 3]⟩ ∧
    wfSlide ⟨1, none, Orientation.Horizontal, 3, [2, 3, 4]⟩ ∧
    ([1, 2, 3] : List Nat).length + ([2, 3, 4] : List Nat).length ≤ 255 ∧
    wasteU8 ⟨0, none, Orientation.Horizontal, 3, [1, 2, 3]⟩
      ⟨1, none, Orientation.Horizontal, 3, [2, 3, 4]⟩ =
      specWaste [1, 2, 3] [2, 3, 4] :=
  ⟨by decide, by decide, by decide,
    waste_formula_in_range.1 _ _ (by decide) (by decide) (by decide)⟩

/-- C10, counterexample.  Two well-formed vertical pictures with 128 disjoint
tags each (so `number_of_tags = tags.len() = 128 ≤ 255` for both) produce a
composite slide with 256 tags whose `tags.len() as u8` cast truncates to `0`:
the claimed absence of truncation under the stated precondition is false. -/
theorem composite_cast_truncates :
    List.Nodup tagsLow ∧ List.Nodup tagsHigh ∧
    tagsLow.length = 128 ∧ tagsHigh.length = 128 ∧
    (create_slides [⟨0, Orientation.Vertical, 128, tagsLow⟩,
        ⟨1, Orientation.Vertical, 128, tagsHigh⟩]).map
      (List.map (fun s => (s.number_of_tags, s.tags.length))) = some [(0, 256)] ∧
    (0 : Nat) ≠ 256 := by
  decide

/-- C10, amended: under the precondition (duplicate-free tags with
`number_of_tags = tags.length ≤ 255`) none of the three `u8` subtractions
`number_of_tags - common_tags` in the waste and score computations
underflows — each equals the exact natural-number difference; the truncating
cast on a composite slide is exact only under the ADDITIONAL hypothesis that
the merged tag list has at most 255 entries (which two ≤ 255-tag pictures do
not guarantee). -/
theorem u8_tag_arithmetic_safe :
    (∀ A B : Slide, wfSlide A → wfSlide B →
      sub8 A.number_of_tags (u8 (commonTags A.tags B.tags)) =
        A.number_of_tags - commonTags A.tags B.tags ∧
      sub8 B.number_of_tags (u8 (commonTags A.tags B.tags)) =
        B.number_of_tags - commonTags A.tags B.tags ∧
      sub8 (min (u8 B.number_of_tags) (u8 A.number_of_tags))
          (u8 (commonTags B.tags A.tags)) =
        min B.number_of_tags A.number_of_tags - commonTags B.tags A.tags) ∧
    (∀ current partner : List Nat, (mergeTags current partner).length ≤ 255 →
      u8 (mergeTags current partner).length = (mergeTags current partner).length) := by
  constructor
  · intro A B ha hb
    obtain ⟨hanodup, halen, hamax⟩ := ha
    obtain ⟨hbnodup, hblen, hbmax⟩ := hb
    have h1 : commonTags A.tags B.tags ≤ A.tags.length := commonTags_le_left _ _
    have h2 : commonTags A.tags B.tags ≤ B.tags.length :=
      commonTags_le_right _ _ hanodup
    have h3 : commonTags B.tags A.tags ≤ A.tags.length :=
      commonTags_le_right _ _ hbnodup
    have h4 : commonTags B.tags A.tags ≤ B.tags.length := commonTags_le_left _ _
    refine ⟨?_, ?_, ?_⟩
    · rw [u8_eq_of_le (show commonTags A.tags B.tags ≤ 255 by omega)]
      exact sub8_exact (by omega) (by omega)
    · rw [u8_eq_of_le (show commonTags A.tags B.tags ≤ 255 by omega)]
      exact sub8_exact (by omega) (by omega)
    · rw [u8_eq_of_le (show commonTags B.tags A.tags ≤ 255 by omega),
        u8_eq_of_le (show B.number_of_tags ≤ 255 by omega),
        u8_eq_of_le (show A.number_of_tags ≤ 255 by omega)]
      exact sub8_exact (by omega) (by omega)
  · intro current partner h
    exact u8_eq_of_le h

/-- C10, amended, witness at a concrete pair of slides. -/
theorem u8_tag_arithmetic_safe_witness :
    wfSlide ⟨0, none, Orientation.Horizontal, 2, [1, 2]⟩ ∧
    wfSlide ⟨1, none, Orientation.Horizontal, 2, [2, 9]⟩ ∧
    sub8 2 (u8 (commonTags [1, 2] [2, 9])) = 2 - commonTags [1, 2] [2, 9] ∧
    (mergeTags [1, 2] [2, 9]).length ≤ 255 ∧
    u8 (mergeTags [1, 2] [2, 9]).length = (mergeTags [1, 2] [2, 9]).length :=
  ⟨by decide, by decide,
    (u8_tag_arithmetic_safe.1 ⟨0, none, Orientation.Horizontal, 2, [1, 2]⟩
      ⟨1, none, Orientation.Horizontal, 2, [2, 9]⟩ (by decide) (by decide)).1,
    by decide, u8_tag_arithmetic_safe.2 [1, 2] [2, 9] (by decide)⟩

end Slideshow
